import Mathlib

/-!
Verification of the Trackit Habit Analytics Engine.

Shallow embedding of the analysis subsystem of the Trackit repository
(`src/analysis/patterns.py` and `src/analysis/time_series.py`) together
with proofs about its behaviour.

Modelling conventions:
- Calendar dates are integers (a day number); consecutive calendar days
  differ by 1.  Day-of-week follows pandas' `dt.dayofweek` (Monday = 0),
  realised here as `date % 7` with day 0 being a Monday.
- Python floats are modelled by exact rationals (`ℚ`); Python ints by
  `ℤ`/`ℕ`.  Python dicts observed by the claims are modelled as
  association lists that record the insertion order the code produces.
- The repository fetch (`get_entries_by_date_range` / `get_entries_by_week`)
  is external to the analytics engine; every embedded operation takes the
  fetched list of entries as an argument.
-/

namespace Trackit

/-- An event record, as handed to the analytics engine
(`src/database`'s entry dictionaries).  `metrics` keeps only the numeric
metric entries — string-valued metrics are dropped by the code's
`select_dtypes(include=[np.number])` before any aggregation the claims
mention. -/
structure Event where
  date : Int
  category : String
  mood : String
  metrics : List (String × ℚ)
deriving Repr, DecidableEq

/-- The Event invariant of the data model: non-empty category and a
tri-state mood. -/
def EventValid (e : Event) : Prop :=
  e.category ≠ "" ∧ e.mood ∈ (["positive", "neutral", "negative"] : List String)

instance (e : Event) : Decidable (EventValid e) := by
  unfold EventValid; infer_instance

/-! ### Distinct sorted dates

`patterns.py` (`detect_streaks`): `dates_with_entries = sorted(df['date'].unique())`.
`unique` keeps first appearance; `sorted` orders ascending. -/

/-- The distinct dates carrying at least one event, sorted ascending
(`sorted(df['date'].unique())`). -/
def datesWithEntries (evs : List Event) : List Int :=
  ((evs.map Event.date).dedup).insertionSort (· ≤ ·)

/-! ### Streak detection (`PatternDetector.detect_streaks`) -/

/-- The run-splitting loop of `detect_streaks`: scanning the sorted
distinct dates, a run continues while the next date is exactly one day
after the previous one; otherwise the run `(start, prev)` is closed and a
new run starts.  `runsAux start prev rest` is the loop state after the
dates `start .. prev` of the current run have been consumed. -/
def runsAux (start prev : Int) : List Int → List (Int × Int)
  | [] => [(start, prev)]
  | c :: t => if c - prev = 1 then runsAux start c t else (start, prev) :: runsAux c c t

/-- All maximal runs `(start, end)` of the sorted distinct date list. -/
def streakRuns : List Int → List (Int × Int)
  | [] => []
  | d :: t => runsAux d d t

/-- Run length `end - start + 1`, as computed by the code. -/
def runLength (r : Int × Int) : Int := r.2 - r.1 + 1

/-- Computes `max([s['length'] for s in streaks])`; for the empty run list the code
returned `0` already via the empty-entries early return. -/
def longestOfRuns (runs : List (Int × Int)) : Int :=
  (runs.map runLength).foldr max 0

/-- The backward walk of `detect_streaks`:
`while any(d == check_date for d in dates): current += 1; check_date -= 1`.
The Python loop is unbounded; here it carries fuel, and
`walkBack_le_length` below shows the fuel used by `detectStreaks`
(`dates.length + 1`) is never exhausted mid-walk. -/
def walkBack (dates : List Int) : ℕ → Int → ℕ
  | 0, _ => 0
  | fuel + 1, d => if d ∈ dates then walkBack dates fuel (d - 1) + 1 else 0

/-- The precondition guarding the backward walk: the most recent
qualifying date equals today or yesterday. -/
def streakCond (dates : List Int) (today : Int) : Prop :=
  ∃ last, dates.getLast? = some last ∧ (last = today ∨ last = today - 1)

instance (dates : List Int) (today : Int) : Decidable (streakCond dates today) := by
  unfold streakCond
  cases dates.getLast? with
  | none => exact .isFalse (by simp)
  | some l => exact decidable_of_iff (l = today ∨ l = today - 1) (by simp)

/-- Result structure of `detect_streaks` (the `streak_dates` strings are
a formatting of `streak_history` and are not modelled separately). -/
structure StreakResult where
  current_streak : ℕ
  longest_streak : Int
  streak_history : List (Int × Int)
deriving Repr, DecidableEq

/-- Embeds `PatternDetector.detect_streaks`, over the fetched entry list and the
current date (`datetime.now().date()`). -/
def detectStreaks (evs : List Event) (today : Int) : StreakResult :=
  if evs = [] then ⟨0, 0, []⟩
  else
    let dates := datesWithEntries evs
    let runs := streakRuns dates
    let current :=
      if streakCond dates today then walkBack dates (dates.length + 1) today else 0
    ⟨current, longestOfRuns runs, runs⟩

/-! ### Properties of the sorted distinct date list -/

theorem datesWithEntries_nodup (evs : List Event) : (datesWithEntries evs).Nodup :=
  (List.perm_insertionSort _ _).symm.nodup (List.nodup_dedup _)

theorem datesWithEntries_sorted (evs : List Event) :
    (datesWithEntries evs).Sorted (· ≤ ·) :=
  List.sorted_insertionSort _ _

theorem datesWithEntries_pairwise_lt (evs : List Event) :
    (datesWithEntries evs).Pairwise (· < ·) :=
  ((datesWithEntries_sorted evs).and (datesWithEntries_nodup evs)).imp
    (fun h => lt_of_le_of_ne h.1 h.2)

theorem mem_datesWithEntries {evs : List Event} {d : Int} :
    d ∈ datesWithEntries evs ↔ ∃ e ∈ evs, e.date = d := by
  unfold datesWithEntries
  rw [(List.perm_insertionSort _ _).mem_iff, List.mem_dedup, List.mem_map]

theorem datesWithEntries_nil : datesWithEntries [] = [] := rfl

/-! ### Properties of the backward walk -/

/-- Every day visited successfully by the walk is in the date list. -/
theorem walkBack_mem (dates : List Int) :
    ∀ (fuel : ℕ) (d : Int) (j : ℕ), j < walkBack dates fuel d → d - j ∈ dates := by
  intro fuel
  induction fuel with
  | zero => intro d j h; simp [walkBack] at h
  | succ n ih =>
    intro d j h
    by_cases hd : d ∈ dates
    · rw [walkBack, if_pos hd] at h
      cases j with
      | zero => simpa using hd
      | succ j' =>
        have := ih (d - 1) j' (by omega)
        have : d - 1 - j' ∈ dates := this
        have heq : d - (j' + 1 : ℕ) = d - 1 - j' := by push_cast; ring
        rwa [heq]
    · rw [walkBack, if_neg hd] at h; omega

/-- When the fuel is not exhausted, the walk stopped because the next
day is absent. -/
theorem walkBack_stop (dates : List Int) :
    ∀ (fuel : ℕ) (d : Int), walkBack dates fuel d < fuel →
      d - walkBack dates fuel d ∉ dates := by
  intro fuel
  induction fuel with
  | zero => intro d h; omega
  | succ n ih =>
    intro d h
    by_cases hd : d ∈ dates
    · rw [walkBack, if_pos hd] at h ⊢
      have h' : walkBack dates n (d - 1) < n := by omega
      have := ih (d - 1) h'
      have heq : d - ((walkBack dates n (d - 1) + 1 : ℕ) : Int)
          = d - 1 - walkBack dates n (d - 1) := by push_cast; ring
      rwa [heq]
    · rw [walkBack, if_neg hd]
      simpa using hd

/-- The walk visits pairwise-distinct days, so on a duplicate-free date
list it can count at most `dates.length` days: the fuel
`dates.length + 1` used by `detectStreaks` is never exhausted. -/
theorem walkBack_le_length (dates : List Int) (hnd : dates.Nodup) (d : Int) (fuel : ℕ) :
    walkBack dates fuel d ≤ dates.length := by
  set k := walkBack dates fuel d with hk
  by_contra h
  push_neg at h
  have hmem : ∀ j : ℕ, j < k → d - j ∈ dates := fun j hj => walkBack_mem dates fuel d j hj
  have hsub : Finset.image (fun j : ℕ => d - (j : Int)) (Finset.range k) ⊆ dates.toFinset := by
    intro x hx
    simp only [Finset.mem_image, Finset.mem_range] at hx
    obtain ⟨j, hj, rfl⟩ := hx
    simpa using hmem j hj
  have hinj : Set.InjOn (fun j : ℕ => d - (j : Int)) (Finset.range k) := by
    intro a _ b _ hab
    simp only at hab
    omega
  have hcard : (Finset.image (fun j : ℕ => d - (j : Int)) (Finset.range k)).card = k := by
    rw [Finset.card_image_of_injOn hinj, Finset.card_range]
  have := Finset.card_le_card hsub
  rw [hcard, List.card_toFinset, List.dedup_eq_self.mpr hnd] at this
  omega

/-! ### Properties of the run decomposition -/

theorem longestOfRuns_nil : longestOfRuns [] = 0 := rfl

theorem longestOfRuns_cons (s e : Int) (rs : List (Int × Int)) :
    longestOfRuns ((s, e) :: rs) = max (e - s + 1) (longestOfRuns rs) := rfl

theorem longestOfRuns_nonneg (rs : List (Int × Int)) : 0 ≤ longestOfRuns rs := by
  induction rs with
  | nil => simp [longestOfRuns_nil]
  | cons r t ih =>
    obtain ⟨s, e⟩ := r
    rw [longestOfRuns_cons]
    exact le_trans ih (le_max_right _ _)

/-- Core interval lemma for the run decomposition: if the whole integer
interval `[a, b]` is covered by the current run segment `[start, prev]`
together with the not-yet-scanned dates `rest`, then some run produced by
`runsAux` has length at least `b - a + 1`. -/
theorem runsAux_interval :
    ∀ (rest : List Int) (start prev a b : Int),
      (prev :: rest).Pairwise (· < ·) → start ≤ prev → a ≤ b →
      (∀ x : Int, a ≤ x → x ≤ b → x ∈ rest ∨ (start ≤ x ∧ x ≤ prev)) →
      b - a + 1 ≤ longestOfRuns (runsAux start prev rest) := by
  intro rest
  induction rest with
  | nil =>
    intro start prev a b _ _ hab hcov
    have ha := hcov a le_rfl hab
    have hb := hcov b hab le_rfl
    simp only [List.not_mem_nil, false_or] at ha hb
    rw [runsAux, longestOfRuns_cons]
    have : b - a + 1 ≤ prev - start + 1 := by omega
    exact le_trans this (le_max_left _ _)
  | cons c t ih =>
    intro start prev a b hpw hsp hab hcov
    have hprevc : prev < c := (List.pairwise_cons.mp hpw).1 c (by simp)
    have hct : (c :: t).Pairwise (· < ·) := (List.pairwise_cons.mp hpw).2
    have htc : ∀ y ∈ t, c < y := (List.pairwise_cons.mp hct).1
    rw [runsAux]
    by_cases h1 : c - prev = 1
    · rw [if_pos h1]
      apply ih start c a b hct (by omega) hab
      intro x hax hxb
      rcases hcov x hax hxb with hx | hx
      · rcases List.mem_cons.mp hx with rfl | hx
        · right; omega
        · left; exact hx
      · right; omega
    · rw [if_neg h1]
      have hgap : c ≥ prev + 2 := by omega
      have hnotmid : ¬ (a ≤ prev + 1 ∧ prev + 1 ≤ b) := by
        rintro ⟨h2, h3⟩
        rcases hcov (prev + 1) h2 h3 with hx | hx
        · rcases List.mem_cons.mp hx with heq | hx
          · omega
          · have := htc _ hx; omega
        · omega
      rw [longestOfRuns_cons]
      rcases (by omega : b ≤ prev ∨ prev + 2 ≤ a) with hcase | hcase
      · have ha := hcov a le_rfl hab
        have hstart : start ≤ a := by
          rcases ha with hx | hx
          · rcases List.mem_cons.mp hx with rfl | hx
            · omega
            · have := htc _ hx; omega
          · omega
        have : b - a + 1 ≤ prev - start + 1 := by omega
        exact le_trans this (le_max_left _ _)
      · have : b - a + 1 ≤ longestOfRuns (runsAux c c t) := by
          apply ih c c a b hct le_rfl hab
          intro x hax hxb
          rcases hcov x hax hxb with hx | hx
          · rcases List.mem_cons.mp hx with rfl | hx
            · right; omega
            · left; exact hx
          · omega
        exact le_trans this (le_max_right _ _)

/-- If the whole integer interval `[a, b]` is present in a strictly
increasing date list, the longest run is at least `b - a + 1`. -/
theorem streakRuns_interval (l : List Int) (hpw : l.Pairwise (· < ·)) (a b : Int)
    (hab : a ≤ b) (hcov : ∀ x : Int, a ≤ x → x ≤ b → x ∈ l) :
    b - a + 1 ≤ longestOfRuns (streakRuns l) := by
  cases l with
  | nil => exact absurd (hcov a le_rfl hab) (by simp)
  | cons d t =>
    rw [streakRuns]
    apply runsAux_interval t d d a b hpw le_rfl hab
    intro x hax hxb
    rcases List.mem_cons.mp (hcov x hax hxb) with rfl | hx
    · right; omega
    · left; exact hx

theorem detectStreaks_current (evs : List Event) (today : Int) (h : evs ≠ []) :
    (detectStreaks evs today).current_streak =
      if streakCond (datesWithEntries evs) today then
        walkBack (datesWithEntries evs) ((datesWithEntries evs).length + 1) today
      else 0 := by
  simp only [detectStreaks, if_neg h]

theorem detectStreaks_longest (evs : List Event) (today : Int) (h : evs ≠ []) :
    (detectStreaks evs today).longest_streak =
      longestOfRuns (streakRuns (datesWithEntries evs)) := by
  simp only [detectStreaks, if_neg h]

/-- Under the today-or-yesterday precondition the entry list cannot be
empty, since the precondition speaks of the last distinct date. -/
theorem streakCond_ne_nil {evs : List Event} {today : Int}
    (h : streakCond (datesWithEntries evs) today) : evs ≠ [] := by
  rintro rfl
  obtain ⟨last, hlast, -⟩ := h
  simp [datesWithEntries_nil] at hlast

/-- Events on days 3, 4, 5 (three consecutive days), a gap, then one
event on day 10 (taken as "today"). -/
def streakDemoA : List Event :=
  [⟨3, "Exercise", "positive", []⟩, ⟨4, "Exercise", "positive", []⟩,
   ⟨5, "Exercise", "positive", []⟩, ⟨10, "Exercise", "positive", []⟩]

/-- Events on days 3, 4, 5, then one event on day 9: the most recent
date is yesterday relative to "today" = 10. -/
def streakDemoB : List Event :=
  [⟨3, "Exercise", "positive", []⟩, ⟨4, "Exercise", "positive", []⟩,
   ⟨5, "Exercise", "positive", []⟩, ⟨9, "Exercise", "positive", []⟩]

/-- C1: when the most recent qualifying date is today or yesterday,
`current_streak` is the backward day-by-day walk from today: every one of
the `current_streak` days ending at today is present in the distinct-date
set and the next day back is missing; otherwise `current_streak` is 0.
For events on three consecutive days, a gap, and one event today, the
result is `longest_streak = 3` and `current_streak = 1`; when the most
recent date is only yesterday, the walk yields `current_streak = 0`. -/
theorem current_streak_backward_walk (evs : List Event) (today : Int) :
    (streakCond (datesWithEntries evs) today →
        (∀ j : ℕ, j < (detectStreaks evs today).current_streak →
            today - (j : Int) ∈ datesWithEntries evs) ∧
          today - ((detectStreaks evs today).current_streak : Int) ∉ datesWithEntries evs) ∧
      (¬ streakCond (datesWithEntries evs) today →
        (detectStreaks evs today).current_streak = 0) ∧
      ((detectStreaks streakDemoA 10).longest_streak = 3 ∧
        (detectStreaks streakDemoA 10).current_streak = 1) ∧
      (detectStreaks streakDemoB 10).current_streak = 0 := by
  refine ⟨?_, ?_, by decide, by decide⟩
  · intro hcond
    have hne := streakCond_ne_nil hcond
    rw [detectStreaks_current evs today hne, if_pos hcond]
    set dates := datesWithEntries evs with hdates
    have hnd : dates.Nodup := datesWithEntries_nodup evs
    have hle := walkBack_le_length dates hnd today (dates.length + 1)
    refine ⟨fun j hj => walkBack_mem dates _ today j hj, ?_⟩
    exact walkBack_stop dates (dates.length + 1) today (by omega)
  · intro hcond
    by_cases hevs : evs = []
    · subst hevs; simp [detectStreaks]
    · rw [detectStreaks_current evs today hevs, if_neg hcond]

/-- C2: the longest streak is at least the current streak, for every
input event set and every value of "today" (covering in particular both
the last-event-today and last-event-yesterday cases). -/
theorem longest_streak_ge_current (evs : List Event) (today : Int) :
    ((detectStreaks evs today).current_streak : Int) ≤
      (detectStreaks evs today).longest_streak := by
  by_cases hevs : evs = []
  · subst hevs; simp [detectStreaks]
  rw [detectStreaks_current evs today hevs, detectStreaks_longest evs today hevs]
  by_cases hcond : streakCond (datesWithEntries evs) today
  · rw [if_pos hcond]
    set dates := datesWithEntries evs with hdates
    set k := walkBack dates (dates.length + 1) today with hk
    rcases Nat.eq_zero_or_pos k with h0 | hpos
    · rw [h0]; exact_mod_cast longestOfRuns_nonneg _
    · have hcov : ∀ x : Int, today - (k : Int) + 1 ≤ x → x ≤ today → x ∈ dates := by
        intro x hx1 hx2
        have hj : ((today - x).toNat : Int) = today - x := by omega
        have hlt : (today - x).toNat < k := by omega
        have := walkBack_mem dates (dates.length + 1) today (today - x).toNat hlt
        rwa [hj, show today - (today - x) = x by ring] at this
      have := streakRuns_interval dates (datesWithEntries_pairwise_lt evs)
        (today - (k : Int) + 1) today (by omega) hcov
      calc (k : Int) = today - (today - (k : Int) + 1) + 1 := by ring
        _ ≤ longestOfRuns (streakRuns dates) := this
  · rw [if_neg hcond]
    exact_mod_cast longestOfRuns_nonneg _

/-! ### Weekly statistics (`TimeSeriesAnalyzer.weekly_statistics`) -/

/-- Canonical weekday order, as in `day_order` of `weekly_statistics`. -/
def dayNames : List String :=
  ["Monday", "Tuesday", "Wednesday", "Thursday", "Friday", "Saturday", "Sunday"]

/-- Day-of-week index with Monday = 0 (pandas `dt.dayofweek`); day 0 of
the integer calendar is taken to be a Monday. -/
def dayOfWeek (d : Int) : ℕ := (d % 7).toNat

/-- The `dt.day_name()` of a date. -/
def dayName (d : Int) : String := dayNames.getD (dayOfWeek d) ""

/-- Embeds `value_counts().to_dict()`: one pair per distinct value, mapped to
its number of occurrences, ordered by descending count. -/
def valueCounts (l : List String) : List (String × ℕ) :=
  (l.dedup.insertionSort (fun a b => l.count b ≤ l.count a)).map (fun v => (v, l.count v))

/-- Per-metric summary (`count/mean/sum/min/max`).  In the code `mean`,
`sum`, `min`, `max` are `None` when every value of the column is NaN; a
metric key of the model always carries a numeric value, so the summary
fields are total here. -/
structure MetricSummary where
  count : ℕ
  mean : ℚ
  sum : ℚ
  min : ℚ
  max : ℚ
deriving Repr, DecidableEq

/-- Bookkeeping columns excluded from the metrics summary. -/
def bookkeepingKeys : List String := ["id", "year", "month", "week", "day_of_week"]

/-- Metric keys observed across the events (`json_normalize` column
order: first appearance), minus the bookkeeping columns. -/
def metricKeys (evs : List Event) : List String :=
  ((evs.flatMap fun e => e.metrics.map Prod.fst).dedup).filter (fun k => k ∉ bookkeepingKeys)

/-- The values carried by a metric key across the events (NaN cells —
events without the key — are skipped, as pandas aggregations do). -/
def metricValsOf (evs : List Event) (k : String) : List ℚ :=
  evs.filterMap (fun e => e.metrics.lookup k)

def listMin : List ℚ → ℚ
  | [] => 0
  | x :: t => t.foldl min x

def listMax : List ℚ → ℚ
  | [] => 0
  | x :: t => t.foldl max x

def summarize (vals : List ℚ) : MetricSummary :=
  ⟨vals.length, vals.sum / vals.length, vals.sum, listMin vals, listMax vals⟩

def metricsSummary (evs : List Event) : List (String × MetricSummary) :=
  (metricKeys evs).map (fun k => (k, summarize (metricValsOf evs k)))

/-- Number of the week's events falling on the named weekday. -/
def countOnDay (evs : List Event) (d : String) : ℕ :=
  (evs.filter (fun e => dayName e.date = d)).length

/-- The `by_day` dict: `groupby('day_name').count()` keeps only weekdays with at
least one row; the reorder comprehension
`{day: by_day.get(day, 0) for day in day_order if day in by_day}`
then lays the present weekdays out in canonical Monday→Sunday order. -/
def byDay (evs : List Event) : List (String × ℕ) :=
  dayNames.filterMap (fun d =>
    if countOnDay evs d = 0 then none else some (d, countOnDay evs d))

/-- Result structure of `weekly_statistics` (the raw `entries` echo is
the input list and is not duplicated here). -/
structure WeeklyStats where
  week : String
  total_entries : ℕ
  by_category : List (String × ℕ)
  by_day : List (String × ℕ)
  mood_distribution : List (String × ℕ)
  metrics_summary : List (String × MetricSummary)
deriving Repr, DecidableEq

/-- Embeds `TimeSeriesAnalyzer.weekly_statistics`, over the entries fetched for
the week.  With a category filter, `by_category` becomes the single pair
`{category: len(df[df['category'] == category])}`; every other field is
computed from the unfiltered frame. -/
def weeklyStatistics (weekIso : String) (entries : List Event)
    (category : Option String) : WeeklyStats :=
  if entries = [] then ⟨weekIso, 0, [], [], [], []⟩
  else
    { week := weekIso
      total_entries := entries.length
      by_category :=
        match category with
        | some c => [(c, (entries.filter (fun e => e.category = c)).length)]
        | none => valueCounts (entries.map Event.category)
      by_day := byDay entries
      mood_distribution := valueCounts (entries.map Event.mood)
      metrics_summary := metricsSummary entries }

/-! ### Weekday partition of the weekly counts -/

theorem dayNames_nodup : dayNames.Nodup := by decide

theorem dayOfWeek_lt (d : Int) : dayOfWeek d < 7 := by
  unfold dayOfWeek
  have h1 : 0 ≤ d % 7 := Int.emod_nonneg d (by norm_num)
  have h2 : d % 7 < 7 := Int.emod_lt_of_pos d (by norm_num)
  omega

theorem dayName_mem (d : Int) : dayName d ∈ dayNames := by
  unfold dayName
  have h : dayOfWeek d < dayNames.length := by
    have := dayOfWeek_lt d; simpa [dayNames] using this
  rw [List.getD_eq_getElem dayNames "" h]
  exact dayNames.getElem_mem h

/-- Dropping zero-count weekdays does not change the sum of counts. -/
theorem filterMap_counts_sum (g : String → ℕ) (names : List String) :
    ((names.filterMap (fun d => if g d = 0 then none else some (d, g d))).map
        Prod.snd).sum = (names.map g).sum := by
  induction names with
  | nil => rfl
  | cons d t ih =>
    by_cases h : g d = 0
    · simp [List.filterMap_cons, h, ih]
    · simp [List.filterMap_cons, h, ih]

/-- The keys kept by the zero-dropping `filterMap` are exactly the
filtered keys, in order. -/
theorem filterMap_counts_keys (g : String → ℕ) (names : List String) :
    (names.filterMap (fun d => if g d = 0 then none else some (d, g d))).map
        Prod.fst = names.filter (fun d => decide (g d ≠ 0)) := by
  induction names with
  | nil => rfl
  | cons d t ih =>
    by_cases h : g d = 0
    · simp [List.filterMap_cons, List.filter_cons, h, ih]
    · simp [List.filterMap_cons, List.filter_cons, h, ih]

theorem sum_map_indicator (x : String) (names : List String) :
    (names.map (fun d => if x = d then (1 : ℕ) else 0)).sum = names.count x := by
  induction names with
  | nil => rfl
  | cons d t ih =>
    by_cases h : x = d
    · subst h; simp [List.count_cons, ih]; omega
    · simp [List.count_cons, h, Ne.symm h, ih]

/-- Each event lands on exactly one weekday, so the per-weekday counts
partition the events. -/
theorem sum_countOnDay (evs : List Event) :
    (dayNames.map (countOnDay evs)).sum = evs.length := by
  induction evs with
  | nil =>
    apply List.sum_eq_zero
    intro x hx
    simp only [List.mem_map] at hx
    obtain ⟨d, -, rfl⟩ := hx
    rfl
  | cons e t ih =>
    have hsplit : ∀ d : String, countOnDay (e :: t) d =
        (if dayName e.date = d then 1 else 0) + countOnDay t d := by
      intro d
      unfold countOnDay
      rw [List.filter_cons]
      by_cases h : dayName e.date = d
      · rw [if_pos (by simpa using h), if_pos h]
        simp only [List.length_cons]
        omega
      · rw [if_neg (by simpa using h), if_neg h]
        simp
    calc (dayNames.map (countOnDay (e :: t))).sum
        = (dayNames.map (fun d =>
            (if dayName e.date = d then 1 else 0) + countOnDay t d)).sum := by
          congr 1; exact List.map_congr_left (fun d _ => hsplit d)
      _ = (dayNames.map (fun d => if dayName e.date = d then 1 else 0)).sum
            + (dayNames.map (countOnDay t)).sum := List.sum_map_add
      _ = dayNames.count (dayName e.date) + t.length := by
          rw [sum_map_indicator, ih]
      _ = 1 + t.length := by
          rw [List.count_eq_one_of_mem dayNames_nodup (dayName_mem e.date)]
      _ = (e :: t).length := by simp [Nat.add_comm]

/-- C7: for an unfiltered weekly-statistics call over events satisfying
the Event invariant, the `by_day` counts sum to `total_entries`, and the
`by_day` keys are exactly the weekdays having at least one entry, laid
out in canonical Monday→Sunday order. -/
theorem weekly_by_day_partition (w : String) (evs : List Event)
    (hval : ∀ e ∈ evs, EventValid e) :
    (((weeklyStatistics w evs none).by_day.map Prod.snd).sum =
        (weeklyStatistics w evs none).total_entries) ∧
      ((weeklyStatistics w evs none).by_day.map Prod.fst =
        dayNames.filter (fun d => decide (∃ e ∈ evs, dayName e.date = d))) := by
  clear hval
  by_cases hevs : evs = []
  · subst hevs
    constructor
    · rfl
    · simp [weeklyStatistics]
  · have hby : (weeklyStatistics w evs none).by_day = byDay evs := by
      simp [weeklyStatistics, hevs]
    have htot : (weeklyStatistics w evs none).total_entries = evs.length := by
      simp [weeklyStatistics, hevs]
    rw [hby, htot]
    constructor
    · rw [byDay, filterMap_counts_sum, sum_countOnDay]
    · rw [byDay, filterMap_counts_keys]
      apply List.filter_congr
      intro d _
      simp only [decide_eq_decide]
      unfold countOnDay
      constructor
      · intro h
        have hne : evs.filter (fun e => decide (dayName e.date = d)) ≠ [] := by
          intro hnil
          exact h (by rw [hnil]; simp)
        obtain ⟨e, he⟩ := List.exists_mem_of_ne_nil _ hne
        have hm := List.mem_filter.mp he
        exact ⟨e, hm.1, by simpa using hm.2⟩
      · rintro ⟨e, he, hd⟩ h0
        have hmem : e ∈ evs.filter (fun e => decide (dayName e.date = d)) :=
          List.mem_filter.mpr ⟨he, by simpa using hd⟩
        rw [List.length_eq_zero] at h0
        rw [h0] at hmem
        exact absurd hmem (List.not_mem_nil e)

/-- A small concrete week: one Exercise entry on Monday (day 0) and one
Study entry on Tuesday (day 1). -/
def demoWeek : List Event :=
  [⟨0, "Exercise", "positive", []⟩, ⟨1, "Study", "neutral", []⟩]

/-- Witness for C7 at the concrete week `demoWeek`. -/
theorem weekly_by_day_partition_witness :
    (((weeklyStatistics "2026-W02" demoWeek none).by_day.map Prod.snd).sum =
        (weeklyStatistics "2026-W02" demoWeek none).total_entries) ∧
      ((weeklyStatistics "2026-W02" demoWeek none).by_day.map Prod.fst =
        dayNames.filter (fun d => decide (∃ e ∈ demoWeek, dayName e.date = d))) :=
  weekly_by_day_partition "2026-W02" demoWeek (by decide)

/-- C10 (amended): on a week with at least one event, the category
filter changes only `by_category`, which becomes the single-entry map
from the filtered category to its count among the week's events; every
other field matches the unfiltered call. -/
theorem weekly_filter_frame (w : String) (evs : List Event) (cat : String)
    (h : evs ≠ []) :
    ((weeklyStatistics w evs (some cat)).total_entries =
        (weeklyStatistics w evs none).total_entries) ∧
      ((weeklyStatistics w evs (some cat)).by_day =
        (weeklyStatistics w evs none).by_day) ∧
      ((weeklyStatistics w evs (some cat)).mood_distribution =
        (weeklyStatistics w evs none).mood_distribution) ∧
      ((weeklyStatistics w evs (some cat)).metrics_summary =
        (weeklyStatistics w evs none).metrics_summary) ∧
      ((weeklyStatistics w evs (some cat)).by_category =
        [(cat, (evs.filter (fun e => e.category = cat)).length)]) := by
  simp [weeklyStatistics, h]

/-- C10 counterexample: on a week with no events the early return
ignores the filter, so the filtered call's `by_category` stays empty
rather than becoming the single-entry map the claim requires. -/
theorem weekly_filter_empty_by_category :
    (weeklyStatistics "2026-W02" [] (some "Exercise")).by_category ≠
      [("Exercise",
        (List.filter (fun e => decide (e.category = "Exercise"))
          ([] : List Event)).length)] := by
  decide

/-- Witness for the amended C10 at the concrete week `demoWeek`. -/
theorem weekly_filter_frame_witness :
    ((weeklyStatistics "2026-W02" demoWeek (some "Exercise")).total_entries =
        (weeklyStatistics "2026-W02" demoWeek none).total_entries) ∧
      ((weeklyStatistics "2026-W02" demoWeek (some "Exercise")).by_day =
        (weeklyStatistics "2026-W02" demoWeek none).by_day) ∧
      ((weeklyStatistics "2026-W02" demoWeek (some "Exercise")).mood_distribution =
        (weeklyStatistics "2026-W02" demoWeek none).mood_distribution) ∧
      ((weeklyStatistics "2026-W02" demoWeek (some "Exercise")).metrics_summary =
        (weeklyStatistics "2026-W02" demoWeek none).metrics_summary) ∧
      ((weeklyStatistics "2026-W02" demoWeek (some "Exercise")).by_category =
        [("Exercise",
          (demoWeek.filter (fun e => e.category = "Exercise")).length)]) :=
  weekly_filter_frame "2026-W02" demoWeek "Exercise" (by decide)

/-! ### Period comparison (`TimeSeriesAnalyzer.compare_periods`) -/

structure CatChange where
  absolute : Int
  percent : ℚ
deriving Repr, DecidableEq

structure MoodChange where
  period1 : ℕ
  period2 : ℕ
  absolute : Int
deriving Repr, DecidableEq

structure MetricChange where
  period1_sum : ℚ
  period2_sum : ℚ
  absolute : ℚ
  percent : ℚ
deriving Repr, DecidableEq

structure PeriodChange where
  total_entries : Int
  total_entries_percent : ℚ
  by_category : List (String × CatChange)
  mood_distribution : List (String × MoodChange)
  metrics : List (String × MetricChange)
deriving Repr, DecidableEq

structure Comparison where
  period1 : String
  period2 : String
  period1_stats : WeeklyStats
  period2_stats : WeeklyStats
  change : PeriodChange
  improvement_total_entries : Bool
  improvement_positive_mood : Bool
deriving Repr, DecidableEq

/-- Embeds `stats.get('by_category', {}).get(cat, 0)` and the analogous mood
lookup: the stored count, or 0 when the key is absent. -/
def lookupCount (l : List (String × ℕ)) (k : String) : ℕ :=
  ((l.lookup k).getD 0)

/-- Embeds `metrics.get(name, {}).get('sum', 0)`: the stored metric sum, or 0
when the metric is absent from the period. -/
def lookupSum (l : List (String × MetricSummary)) (k : String) : ℚ :=
  (((l.lookup k).map MetricSummary.sum).getD 0)

/-- The guarded percent-change pattern repeated throughout
`compare_periods`: `((new - old) / old * 100) if old > 0 else 0`. -/
def percentChange (old new : ℚ) : ℚ :=
  if old > 0 then ((new - old) / old) * 100 else 0

/-- Embeds `TimeSeriesAnalyzer.compare_periods`, over the two fetched weekly
entry lists.  Union key sets (`set(keys1 + keys2)`) keep first-appearance
order here; set iteration order is not observable in any claim. -/
def comparePeriods (p1 p2 : String) (evs1 evs2 : List Event)
    (category : Option String) : Comparison :=
  let stats1 := weeklyStatistics p1 evs1 category
  let stats2 := weeklyStatistics p2 evs2 category
  let count1 := stats1.total_entries
  let count2 := stats2.total_entries
  let allCats := (stats1.by_category.map Prod.fst ++ stats2.by_category.map Prod.fst).dedup
  let byCat := allCats.map (fun c =>
    let c1 := lookupCount stats1.by_category c
    let c2 := lookupCount stats2.by_category c
    (c, CatChange.mk ((c2 : Int) - c1) (percentChange (c1 : ℚ) (c2 : ℚ))))
  let moodCh := ["positive", "neutral", "negative"].map (fun m =>
    let m1 := lookupCount stats1.mood_distribution m
    let m2 := lookupCount stats2.mood_distribution m
    (m, MoodChange.mk m1 m2 ((m2 : Int) - m1)))
  let allMetrics :=
    (stats1.metrics_summary.map Prod.fst ++ stats2.metrics_summary.map Prod.fst).dedup
  let mets := allMetrics.map (fun k =>
    let s1 := lookupSum stats1.metrics_summary k
    let s2 := lookupSum stats2.metrics_summary k
    (k, MetricChange.mk s1 s2 (s2 - s1) (percentChange s1 s2)))
  let change : PeriodChange :=
    ⟨(count2 : Int) - count1,
      percentChange (count1 : ℚ) (count2 : ℚ),
      byCat, moodCh, mets⟩
  ⟨p1, p2, stats1, stats2, change,
    decide (change.total_entries ≥ 0),
    decide ((((moodCh.lookup "positive").map MoodChange.absolute).getD 0) ≥ 0)⟩

/-- C4 (amended): every percent field produced by `compare_periods` is
the guarded `percentChange` of its baseline pair, and `percentChange`
divides only when the baseline is strictly positive: a zero baseline —
and, for the (possibly negative) metric sums, any non-positive
baseline — yields percent 0 regardless of the new value, while a
positive baseline yields `(new - old) / old * 100`.  In particular no
division by zero ever occurs. -/
theorem compare_periods_zero_baseline (p1 p2 : String) (evs1 evs2 : List Event)
    (category : Option String) :
    ((comparePeriods p1 p2 evs1 evs2 category).change.total_entries_percent =
        percentChange ((weeklyStatistics p1 evs1 category).total_entries : ℚ)
          ((weeklyStatistics p2 evs2 category).total_entries : ℚ)) ∧
      (∀ pr ∈ (comparePeriods p1 p2 evs1 evs2 category).change.by_category,
        pr.2.percent =
          percentChange
            ((lookupCount (weeklyStatistics p1 evs1 category).by_category pr.1 : ℚ))
            ((lookupCount (weeklyStatistics p2 evs2 category).by_category pr.1 : ℚ))) ∧
      (∀ pr ∈ (comparePeriods p1 p2 evs1 evs2 category).change.metrics,
        pr.2.percent =
          percentChange
            (lookupSum (weeklyStatistics p1 evs1 category).metrics_summary pr.1)
            (lookupSum (weeklyStatistics p2 evs2 category).metrics_summary pr.1)) ∧
      (∀ old new : ℚ,
        (old = 0 → percentChange old new = 0) ∧
          (0 < old → percentChange old new = ((new - old) / old) * 100) ∧
          (old < 0 → percentChange old new = 0)) := by
  refine ⟨rfl, ?_, ?_, ?_⟩
  · intro pr hpr
    simp only [comparePeriods, List.mem_map] at hpr
    obtain ⟨x, -, rfl⟩ := hpr
    rfl
  · intro pr hpr
    simp only [comparePeriods, List.mem_map] at hpr
    obtain ⟨x, -, rfl⟩ := hpr
    rfl
  · intro old new
    refine ⟨fun h => ?_, fun h => ?_, fun h => ?_⟩
    · rw [percentChange, if_neg (by rw [h]; exact lt_irrefl 0)]
    · rw [percentChange, if_pos h]
    · rw [percentChange, if_neg (by exact not_lt.mpr (le_of_lt h))]

/-- C4 counterexample: with a negative metric-sum baseline (period-1
sum of metric "delta" is −1, period-2 sum is 1) the code yields percent
0, while the claim's unguarded formula `(new - old) / old * 100`
evaluates to −200 ≠ 0: the "otherwise" branch of the claim fails for a
non-zero, non-positive baseline. -/
theorem compare_periods_negative_baseline :
    ((((comparePeriods "2026-W01" "2026-W02"
            [⟨0, "Exercise", "positive", [("delta", -1)]⟩]
            [⟨7, "Exercise", "positive", [("delta", 1)]⟩]
            none).change.metrics.lookup "delta").map MetricChange.period1_sum) =
        some (-1)) ∧
      ((((comparePeriods "2026-W01" "2026-W02"
            [⟨0, "Exercise", "positive", [("delta", -1)]⟩]
            [⟨7, "Exercise", "positive", [("delta", 1)]⟩]
            none).change.metrics.lookup "delta").map MetricChange.percent) =
        some 0) ∧
      (((1 : ℚ) - (-1)) / (-1)) * 100 ≠ 0 := by
  refine ⟨?_, ?_, by norm_num⟩ <;>
    norm_num [comparePeriods, weeklyStatistics, metricsSummary, metricKeys,
      metricValsOf, summarize, lookupSum, lookupCount, valueCounts, byDay,
      countOnDay, percentChange, bookkeepingKeys, listMin, listMax,
      List.lookup, List.dedup, List.insertionSort, List.orderedInsert,
      List.filterMap_cons, List.filter_cons, List.pwFilter]

/-! ### Trend analysis (`TimeSeriesAnalyzer.trend_analysis`)

The code fits `np.polyfit(x, y, 1)` over `x = 0 .. n-1`: the
least-squares line.  Here the fit is embedded by its standard
normal-equation solution (`slope`, `intercept` below);
`linear_fit_minimizes` proves this is indeed the least-squares
minimizer, which is what `polyfit` computes in exact arithmetic. -/

/-- Tests `metric in df.columns`: the metric key appears on some event. -/
def hasMetricColumn (evs : List Event) (m : String) : Bool :=
  evs.any (fun e => (e.metrics.lookup m).isSome)

/-- The sparse daily value series: one entry per distinct date with
events, in date order; the value is the metric's per-day sum when a
metric column is selected, else the per-day event count. -/
def dailySeries (metricOpt : Option String) (evs : List Event) : List ℚ :=
  let dates := datesWithEntries evs
  match metricOpt with
  | some m =>
    if hasMetricColumn evs m then
      dates.map (fun d =>
        ((evs.filter (fun e => e.date = d)).filterMap
          (fun e => e.metrics.lookup m)).sum)
    else dates.map (fun d => ((evs.filter (fun e => e.date = d)).length : ℚ))
  | none => dates.map (fun d => ((evs.filter (fun e => e.date = d)).length : ℚ))

/-- Embeds `rolling(window, min_periods=1).mean()`: at position `i`, the mean
of the last `min(window, i+1)` series entries. -/
def movingAvg (window : ℕ) (l : List ℚ) : List ℚ :=
  (List.range l.length).map (fun i =>
    let seg := (l.take (i + 1)).drop (i + 1 - window)
    seg.sum / seg.length)

/-- Mean of the regression indices `0 .. n-1`. -/
def idxMean (n : ℕ) : ℚ := (∑ i in Finset.range n, (i : ℚ)) / n

/-- Series value at an index. -/
def valAt (l : List ℚ) (i : ℕ) : ℚ := l.getD i 0

/-- Mean of the series values. -/
def valMean (l : List ℚ) : ℚ := l.sum / l.length

/-- Centered second moment of the indices. -/
def sxx (n : ℕ) : ℚ := ∑ i in Finset.range n, ((i : ℚ) - idxMean n) ^ 2

/-- Centered index/value cross moment. -/
def sxy (l : List ℚ) : ℚ :=
  ∑ i in Finset.range l.length, ((i : ℚ) - idxMean l.length) * (valAt l i - valMean l)

/-- The least-squares slope (`np.polyfit(x, y, 1)[0]`). -/
def slope (l : List ℚ) : ℚ := sxy l / sxx l.length

/-- The least-squares intercept (`np.polyfit(x, y, 1)[1]`). -/
def intercept (l : List ℚ) : ℚ := valMean l - slope l * idxMean l.length

/-- Sum of squared residuals of the line `y = b * i + a`. -/
def ssq (l : List ℚ) (b a : ℚ) : ℚ :=
  ∑ i in Finset.range l.length, (valAt l i - (b * i + a)) ^ 2

/-- The `ss_res` value: residual sum of squares of the fitted line. -/
def ssRes (l : List ℚ) : ℚ := ssq l (slope l) (intercept l)

/-- The `ss_tot` value: total sum of squares about the mean. -/
def ssTot (l : List ℚ) : ℚ :=
  ∑ i in Finset.range l.length, (valAt l i - valMean l) ^ 2

/-- Embeds `r_squared = 1 - (ss_res / ss_tot) if ss_tot > 0 else 0`. -/
def rSquared (l : List ℚ) : ℚ :=
  if ssTot l > 0 then 1 - ssRes l / ssTot l else 0

/-- The trend direction computed by `trend_analysis`. -/
def trendDirection (l : List ℚ) : String :=
  if 2 ≤ l.length then
    if |slope l| < 1 / 100 then "stable"
    else if slope l > 0 then "increasing"
    else "decreasing"
  else "insufficient_data"

/-- The trend strength computed by `trend_analysis`. -/
def trendStrength (l : List ℚ) : ℚ :=
  if 2 ≤ l.length then rSquared l else 0

/-- The `summary` dictionary of a non-empty `trend_analysis` run. -/
structure TrendSummary where
  metricName : String
  window_days : ℕ
  period_days : ℕ
  mean_value : ℚ
  max_value : ℚ
  min_value : ℚ
deriving Repr, DecidableEq

/-- Result of `trend_analysis`.  `summary = none` models the empty
`summary: {}` dictionary of the no-entries early return. -/
structure TrendResult where
  daily_data : List (Int × ℚ × ℚ)
  trend_direction : String
  trend_strength : ℚ
  summary : Option TrendSummary
deriving Repr, DecidableEq

/-- Embeds `TimeSeriesAnalyzer.trend_analysis` over the fetched entries (the
category filter is applied by the repository fetch, upstream of this
computation). -/
def trendAnalysis (metricOpt : Option String) (window : ℕ)
    (evs : List Event) : TrendResult :=
  if evs = [] then ⟨[], "insufficient_data", 0, none⟩
  else
    let dates := datesWithEntries evs
    let l := dailySeries metricOpt evs
    let usedMetric : String :=
      match metricOpt with
      | some m => if hasMetricColumn evs m then m else "count"
      | none => "count"
    let dd := (dates.zip (l.zip (movingAvg window l))).map
      (fun p => (p.1, p.2.1, p.2.2))
    ⟨dd, trendDirection l, trendStrength l,
      some ⟨usedMetric, window, l.length, valMean l, listMax l, listMin l⟩⟩

/-! ### Least-squares algebra -/

theorem sum_valAt (l : List ℚ) :
    ∑ i in Finset.range l.length, valAt l i = l.sum := by
  induction l with
  | nil => rfl
  | cons a t ih =>
    rw [List.length_cons, Finset.sum_range_succ']
    have h1 : ∀ i ∈ Finset.range t.length, valAt (a :: t) (i + 1) = valAt t i := by
      intro i _; rfl
    rw [Finset.sum_congr rfl h1, ih]
    simp only [valAt, List.getD_cons_zero, List.sum_cons]
    ring

theorem sum_centered_idx (n : ℕ) (hn : n ≠ 0) :
    ∑ i in Finset.range n, ((i : ℚ) - idxMean n) = 0 := by
  rw [Finset.sum_sub_distrib, Finset.sum_const, Finset.card_range, nsmul_eq_mul,
    idxMean]
  have hq : (n : ℚ) ≠ 0 := Nat.cast_ne_zero.mpr hn
  field_simp

theorem sum_centered_val (l : List ℚ) (hn : l.length ≠ 0) :
    ∑ i in Finset.range l.length, (valAt l i - valMean l) = 0 := by
  rw [Finset.sum_sub_distrib, Finset.sum_const, Finset.card_range, nsmul_eq_mul,
    sum_valAt, valMean]
  have hq : (l.length : ℚ) ≠ 0 := Nat.cast_ne_zero.mpr hn
  field_simp

/-- Decomposition of the residual sum of squares of an arbitrary line
`y = b * i + a` into the centered moments. -/
theorem ssq_decomposition (l : List ℚ) (hn : l.length ≠ 0) (b a : ℚ) :
    ssq l b a = ssTot l - 2 * b * sxy l + b ^ 2 * sxx l.length
      + (l.length : ℚ) * (a - (valMean l - b * idxMean l.length)) ^ 2 := by
  set n := l.length with hnn
  set μx := idxMean n with hμx
  set μy := valMean l with hμy
  set e := a - (μy - b * μx) with he
  have hpt : ∀ i ∈ Finset.range n, (valAt l i - (b * i + a)) ^ 2 =
      (valAt l i - μy) ^ 2 + b ^ 2 * ((i : ℚ) - μx) ^ 2 + e ^ 2
        - 2 * b * (((i : ℚ) - μx) * (valAt l i - μy))
        - 2 * e * (valAt l i - μy)
        + 2 * (b * e) * ((i : ℚ) - μx) := by
    intro i _
    rw [he]
    ring
  rw [ssq, Finset.sum_congr rfl hpt]
  rw [Finset.sum_add_distrib, Finset.sum_sub_distrib, Finset.sum_sub_distrib,
    Finset.sum_add_distrib, Finset.sum_add_distrib]
  rw [← Finset.mul_sum, ← Finset.mul_sum, ← Finset.mul_sum, ← Finset.mul_sum]
  rw [Finset.sum_const, Finset.card_range, nsmul_eq_mul]
  rw [sum_centered_idx n hn, sum_centered_val l hn]
  rw [← ssTot, ← sxx, ← sxy]
  ring

theorem sxx_nonneg (n : ℕ) : 0 ≤ sxx n :=
  Finset.sum_nonneg (fun i _ => sq_nonneg _)

theorem ssTot_nonneg (l : List ℚ) : 0 ≤ ssTot l :=
  Finset.sum_nonneg (fun i _ => sq_nonneg _)

theorem ssq_nonneg (l : List ℚ) (b a : ℚ) : 0 ≤ ssq l b a :=
  Finset.sum_nonneg (fun i _ => sq_nonneg _)

/-- With at least two indices the centered index moment is positive:
indices 0 and 1 cannot both equal the index mean. -/
theorem sxx_pos (n : ℕ) (hn : 2 ≤ n) : 0 < sxx n := by
  rcases lt_or_eq_of_le (sxx_nonneg n) with h | h
  · exact h
  exfalso
  have hall : ∀ i ∈ Finset.range n, ((i : ℚ) - idxMean n) ^ 2 = 0 := by
    rw [← Finset.sum_eq_zero_iff_of_nonneg (fun i _ => sq_nonneg _)]
    exact h.symm
  have h0 : ((0 : ℚ) - idxMean n) ^ 2 = 0 := by
    have := hall 0 (Finset.mem_range.mpr (by omega))
    simpa using this
  have h1 : ((1 : ℚ) - idxMean n) ^ 2 = 0 := by
    have := hall 1 (Finset.mem_range.mpr (by omega))
    simpa using this
  rw [sq_eq_zero_iff, sub_eq_zero] at h0 h1
  rw [← h0] at h1
  norm_num at h1

/-- The closed-form `slope`/`intercept` pair minimizes the sum of
squared residuals over all lines: it is the least-squares fit that
`np.polyfit(x, y, 1)` computes. -/
theorem linear_fit_minimizes (l : List ℚ) (hn : 2 ≤ l.length) (b a : ℚ) :
    ssq l (slope l) (intercept l) ≤ ssq l b a := by
  have hn0 : l.length ≠ 0 := by omega
  have hs := sxx_pos l.length hn
  have hs0 : sxx l.length ≠ 0 := ne_of_gt hs
  rw [ssq_decomposition l hn0 b a, ssq_decomposition l hn0 (slope l) (intercept l)]
  have he0 : intercept l - (valMean l - slope l * idxMean l.length) = 0 := by
    rw [intercept]; ring
  rw [he0]
  have hopt : -(2 * slope l * sxy l) + slope l ^ 2 * sxx l.length
      = -(sxy l ^ 2 / sxx l.length) := by
    rw [slope]; field_simp; ring
  have hb : b ^ 2 * sxx l.length - 2 * b * sxy l + sxy l ^ 2 / sxx l.length
      = (b * sxx l.length - sxy l) ^ 2 / sxx l.length := by
    field_simp; ring
  have hge : 0 ≤ (b * sxx l.length - sxy l) ^ 2 / sxx l.length :=
    div_nonneg (sq_nonneg _) (le_of_lt hs)
  have hge2 : 0 ≤ (l.length : ℚ) * (a - (valMean l - b * idxMean l.length)) ^ 2 :=
    mul_nonneg (by positivity) (sq_nonneg _)
  nlinarith [hge, hge2, hopt, hb]

/-- Shows `ss_res ≤ ss_tot`: the fitted line explains no less than the
constant mean line, whose residual sum is `ss_tot`. -/
theorem ssRes_le_ssTot (l : List ℚ) (hn : 2 ≤ l.length) : ssRes l ≤ ssTot l := by
  have h := linear_fit_minimizes l hn 0 (valMean l)
  have hmean : ssq l 0 (valMean l) = ssTot l := by
    rw [ssq, ssTot]
    apply Finset.sum_congr rfl
    intro i _
    ring_nf
  rw [ssRes]
  rw [hmean] at h
  exact h

theorem rSquared_mem_unit (l : List ℚ) (hn : 2 ≤ l.length) :
    0 ≤ rSquared l ∧ rSquared l ≤ 1 := by
  rw [rSquared]
  by_cases h : ssTot l > 0
  · rw [if_pos h]
    constructor
    · have hdiv : ssRes l / ssTot l ≤ 1 :=
        (div_le_one h).mpr (ssRes_le_ssTot l hn)
      linarith
    · have hres : 0 ≤ ssRes l := ssq_nonneg l _ _
      have hdiv : 0 ≤ ssRes l / ssTot l := div_nonneg hres (le_of_lt h)
      linarith
  · rw [if_neg h]
    norm_num

theorem dailySeries_nil (m : Option String) : dailySeries m [] = [] := by
  cases m with
  | none => rfl
  | some s => simp [dailySeries, hasMetricColumn, datesWithEntries_nil]

/-- C3 counterexample: on an empty fetched event list `trend_analysis`
returns the empty `summary: {}` dictionary, so no zero-valued `mean`,
`max`, `min` entries are present in it. -/
theorem trend_empty_summary_has_no_keys :
    ¬ ∃ s : TrendSummary,
        (trendAnalysis none 7 ([] : List Event)).summary = some s ∧
          s.mean_value = 0 ∧ s.max_value = 0 ∧ s.min_value = 0 := by
  simp [trendAnalysis]

/-- C3 (amended): on an empty fetched event list `trend_analysis`
returns empty daily data, direction `insufficient_data`, strength 0 and
the empty summary map — the zero-valued mean/max/min fallbacks live only
on the non-empty path, which an empty fetch never reaches. -/
theorem trend_empty_result (m : Option String) (w : ℕ) :
    trendAnalysis m w ([] : List Event) =
      ⟨[], "insufficient_data", 0, none⟩ := by
  simp [trendAnalysis]

/-- C5: with fewer than two points the direction is `insufficient_data`
and the strength 0; otherwise the direction is classified by the
least-squares slope — `stable` when `|slope| < 0.01`, else `increasing`
for positive slope, else `decreasing` — where `slope`/`intercept` are
genuinely the least-squares fit: they minimize the sum of squared
residuals over all lines on the `(index, value)` pairs. -/
theorem trend_direction_rule (m : Option String) (w : ℕ) (evs : List Event) :
    ((dailySeries m evs).length < 2 →
        (trendAnalysis m w evs).trend_direction = "insufficient_data" ∧
          (trendAnalysis m w evs).trend_strength = 0) ∧
      (2 ≤ (dailySeries m evs).length →
        ((trendAnalysis m w evs).trend_direction =
            if |slope (dailySeries m evs)| < 1 / 100 then "stable"
            else if slope (dailySeries m evs) > 0 then "increasing"
            else "decreasing") ∧
          (∀ b a : ℚ,
            ssq (dailySeries m evs) (slope (dailySeries m evs))
                (intercept (dailySeries m evs)) ≤
              ssq (dailySeries m evs) b a)) := by
  constructor
  · intro hlen
    by_cases hevs : evs = []
    · subst hevs
      exact ⟨congrArg TrendResult.trend_direction (trend_empty_result m w),
        congrArg TrendResult.trend_strength (trend_empty_result m w)⟩
    · have hdir : (trendAnalysis m w evs).trend_direction =
          trendDirection (dailySeries m evs) := by
        simp [trendAnalysis, hevs]
      have hstr : (trendAnalysis m w evs).trend_strength =
          trendStrength (dailySeries m evs) := by
        simp [trendAnalysis, hevs]
      rw [hdir, hstr, trendDirection, trendStrength, if_neg (by omega),
        if_neg (by omega)]
      exact ⟨rfl, rfl⟩
  · intro hlen
    have hevs : evs ≠ [] := by
      intro h
      rw [h, dailySeries_nil] at hlen
      simp at hlen
    have hdir : (trendAnalysis m w evs).trend_direction =
        trendDirection (dailySeries m evs) := by
      simp [trendAnalysis, hevs]
    rw [hdir, trendDirection, if_pos hlen]
    exact ⟨rfl, fun b a => linear_fit_minimizes (dailySeries m evs) hlen b a⟩

/-- C6: whenever the direction is not `insufficient_data`, the trend
strength lies in `[0, 1]`; moreover it is exactly `rSquared`, i.e.,
`1 - ss_res / ss_tot` guarded to 0 when `ss_tot = 0`. -/
theorem trend_strength_unit_interval (m : Option String) (w : ℕ)
    (evs : List Event)
    (h : (trendAnalysis m w evs).trend_direction ≠ "insufficient_data") :
    (0 ≤ (trendAnalysis m w evs).trend_strength ∧
        (trendAnalysis m w evs).trend_strength ≤ 1) ∧
      (trendAnalysis m w evs).trend_strength = rSquared (dailySeries m evs) := by
  have hevs : evs ≠ [] := by
    intro heq
    rw [heq] at h
    exact h (congrArg TrendResult.trend_direction (trend_empty_result m w))
  have hdir : (trendAnalysis m w evs).trend_direction =
      trendDirection (dailySeries m evs) := by
    simp [trendAnalysis, hevs]
  have hstr : (trendAnalysis m w evs).trend_strength =
      trendStrength (dailySeries m evs) := by
    simp [trendAnalysis, hevs]
  have hlen : 2 ≤ (dailySeries m evs).length := by
    by_contra hlt
    rw [hdir, trendDirection, if_neg hlt] at h
    exact h rfl
  rw [hstr, trendStrength, if_pos hlen]
  exact ⟨rSquared_mem_unit (dailySeries m evs) hlen, rfl⟩

/-- Two single-event days, giving the two-point daily series `[1, 1]`. -/
def demoTrend : List Event :=
  [⟨0, "Exercise", "positive", []⟩, ⟨1, "Exercise", "positive", []⟩]

theorem demoTrend_series : dailySeries none demoTrend = [1, 1] := by
  norm_num [dailySeries, datesWithEntries, demoTrend, List.dedup, List.pwFilter,
    List.insertionSort, List.orderedInsert, List.filter]

theorem demoTrend_direction :
    (trendAnalysis none 7 demoTrend).trend_direction = "stable" := by
  have hdir : (trendAnalysis none 7 demoTrend).trend_direction =
      trendDirection (dailySeries none demoTrend) := by
    simp [trendAnalysis, demoTrend]
  rw [hdir, demoTrend_series, trendDirection]
  have hslope : slope [1, 1] = 0 := by
    norm_num [slope, sxy, sxx, idxMean, valMean, valAt, Finset.sum_range_succ]
  rw [if_pos (by norm_num), if_pos (by rw [hslope]; norm_num)]

/-- Witness for C6 at the concrete event list `demoTrend`. -/
theorem trend_strength_unit_interval_witness :
    (0 ≤ (trendAnalysis none 7 demoTrend).trend_strength ∧
        (trendAnalysis none 7 demoTrend).trend_strength ≤ 1) ∧
      (trendAnalysis none 7 demoTrend).trend_strength =
        rSquared (dailySeries none demoTrend) :=
  trend_strength_unit_interval none 7 demoTrend
    (by rw [demoTrend_direction]; decide)

/-! ### Day-of-week patterns (`PatternDetector.detect_day_of_week_patterns`) -/

structure DayStats where
  count : ℕ
  positive_rate : ℚ
  positive_count : ℕ
  neutral_count : ℕ
  negative_count : ℕ
  avg_entries_per_week : ℚ
deriving Repr, DecidableEq

/-- Per-weekday statistics: the `if len(day_df) > 0` branch computes the
counts and rates, the else branch is all zeros. -/
def dayStatsFor (evs : List Event) (weeks : ℕ) (dayNum : ℕ) : DayStats :=
  let dayEvs := evs.filter (fun e => dayOfWeek e.date = dayNum)
  if dayEvs.length = 0 then ⟨0, 0, 0, 0, 0, 0⟩
  else
    ⟨dayEvs.length,
      ((dayEvs.filter (fun e => e.mood = "positive")).length : ℚ) / dayEvs.length,
      (dayEvs.filter (fun e => e.mood = "positive")).length,
      (dayEvs.filter (fun e => e.mood = "neutral")).length,
      (dayEvs.filter (fun e => e.mood = "negative")).length,
      (dayEvs.length : ℚ) / weeks⟩

/-- The `day_analysis` dict: all seven weekdays, inserted in
Monday→Sunday order. -/
def dayAnalysis (evs : List Event) (weeks : ℕ) : List (String × DayStats) :=
  (List.range 7).map (fun i => (dayNames.getD i "", dayStatsFor evs weeks i))

/-- Python `max(items, key=f)`: scan left to right, replacing the
current best only on a strictly greater key, so the first maximum wins. -/
def pyMaxBy {α β : Type} [LinearOrder β] (f : α → β) : List α → Option α
  | [] => none
  | x :: t => some (t.foldl (fun acc z => if f acc < f z then z else acc) x)

/-- Python `min(items, key=f)`: the first minimum wins. -/
def pyMinBy {α β : Type} [LinearOrder β] (f : α → β) : List α → Option α
  | [] => none
  | x :: t => some (t.foldl (fun acc z => if f z < f acc then z else acc) x)

/-- Result of `detect_day_of_week_patterns`.  The natural-language
`patterns` strings are presentation only and are not modelled. -/
structure DayPatterns where
  best_day : Option String
  worst_day : Option String
  most_active_day : Option String
  least_active_day : Option String
  day_analysis : List (String × DayStats)
deriving Repr, DecidableEq

/-- Embeds `PatternDetector.detect_day_of_week_patterns` over the fetched
entries. -/
def detectDayOfWeekPatterns (evs : List Event) (weeks : ℕ) : DayPatterns :=
  if evs = [] then ⟨none, none, none, none, []⟩
  else
    let da := dayAnalysis evs weeks
    ⟨(pyMaxBy (fun p => p.2.positive_rate) da).map Prod.fst,
      (pyMinBy (fun p => p.2.positive_rate) da).map Prod.fst,
      (pyMaxBy (fun p => p.2.count) da).map Prod.fst,
      (pyMinBy (fun p => p.2.count) da).map Prod.fst,
      da⟩

/-- Spec-side predicate (from the claim's words): `res` is the key of
the first list entry attaining the maximum of `f`, scanning in list
order. -/
def FirstArgmaxKey {β : Type} [LinearOrder β] (l : List (String × DayStats))
    (f : DayStats → β) (res : Option String) : Prop :=
  ∃ p pre post, l = pre ++ p :: post ∧ res = some p.1 ∧
    (∀ q ∈ l, f q.2 ≤ f p.2) ∧ (∀ q ∈ pre, f q.2 < f p.2)

/-- Spec-side predicate: `res` is the key of the first list entry
attaining the minimum of `f`. -/
def FirstArgminKey {β : Type} [LinearOrder β] (l : List (String × DayStats))
    (f : DayStats → β) (res : Option String) : Prop :=
  ∃ p pre post, l = pre ++ p :: post ∧ res = some p.1 ∧
    (∀ q ∈ l, f p.2 ≤ f q.2) ∧ (∀ q ∈ pre, f p.2 < f q.2)

/-- The left fold of Python `max` lands on the first maximum. -/
theorem foldl_pyMax_first {α β : Type} [LinearOrder β] (f : α → β) :
    ∀ (t : List α) (x : α), ∃ pre post,
      x :: t = pre ++ (t.foldl (fun acc z => if f acc < f z then z else acc) x) :: post ∧
        (∀ y ∈ x :: t,
          f y ≤ f (t.foldl (fun acc z => if f acc < f z then z else acc) x)) ∧
        (∀ y ∈ pre,
          f y < f (t.foldl (fun acc z => if f acc < f z then z else acc) x)) := by
  intro t
  induction t with
  | nil =>
    intro x
    exact ⟨[], [], rfl, by simp, by simp⟩
  | cons y t' ih =>
    intro x
    rw [List.foldl_cons]
    by_cases hxy : f x < f y
    · rw [if_pos hxy]
      obtain ⟨pre', post', hdec, hbound, hstrict⟩ := ih y
      refine ⟨x :: pre', post', by rw [List.cons_append, ← hdec], ?_, ?_⟩
      · intro z hz
        rcases List.mem_cons.mp hz with rfl | hz
        · exact le_of_lt (lt_of_lt_of_le hxy (hbound y (by simp)))
        · exact hbound z hz
      · intro z hz
        rcases List.mem_cons.mp hz with rfl | hz
        · exact lt_of_lt_of_le hxy (hbound y (by simp))
        · exact hstrict z hz
    · rw [if_neg hxy]
      have hyx : f y ≤ f x := not_lt.mp hxy
      obtain ⟨pre', post', hdec, hbound, hstrict⟩ := ih x
      cases pre' with
      | nil =>
        simp only [List.nil_append] at hdec
        have hm : t'.foldl (fun acc z => if f acc < f z then z else acc) x = x :=
          ((List.cons.injEq _ _ _ _).mp hdec).1.symm
        rw [hm] at hbound
        refine ⟨[], y :: t', ?_, ?_, by simp⟩
        · rw [hm]; rfl
        · intro z hz
          rw [hm]
          rcases List.mem_cons.mp hz with rfl | hz
          · exact le_refl _
          rcases List.mem_cons.mp hz with rfl | hz
          · exact hyx
          · exact hbound z (List.mem_cons.mpr (Or.inr hz))
      | cons w pre'' =>
        rw [List.cons_append] at hdec
        have hw : w = x := ((List.cons.injEq _ _ _ _).mp hdec).1.symm
        have ht' : t' = pre'' ++
            (t'.foldl (fun acc z => if f acc < f z then z else acc) x) :: post' :=
          ((List.cons.injEq _ _ _ _).mp hdec).2
        have hxlt : f x <
            f (t'.foldl (fun acc z => if f acc < f z then z else acc) x) := by
          have := hstrict w (List.mem_cons.mpr (Or.inl rfl))
          rwa [hw] at this
        refine ⟨x :: y :: pre'', post',
          by rw [List.cons_append, List.cons_append, ← ht'], ?_, ?_⟩
        · intro z hz
          rcases List.mem_cons.mp hz with rfl | hz
          · exact le_of_lt hxlt
          rcases List.mem_cons.mp hz with rfl | hz
          · exact le_of_lt (lt_of_le_of_lt hyx hxlt)
          · exact hbound z (List.mem_cons.mpr (Or.inr hz))
        · intro z hz
          rcases List.mem_cons.mp hz with rfl | hz
          · exact hxlt
          rcases List.mem_cons.mp hz with rfl | hz
          · exact lt_of_le_of_lt hyx hxlt
          · exact hstrict z (List.mem_cons.mpr (Or.inr hz))

/-- The left fold of Python `min` lands on the first minimum. -/
theorem foldl_pyMin_first {α β : Type} [LinearOrder β] (f : α → β) :
    ∀ (t : List α) (x : α), ∃ pre post,
      x :: t = pre ++ (t.foldl (fun acc z => if f z < f acc then z else acc) x) :: post ∧
        (∀ y ∈ x :: t,
          f (t.foldl (fun acc z => if f z < f acc then z else acc) x) ≤ f y) ∧
        (∀ y ∈ pre,
          f (t.foldl (fun acc z => if f z < f acc then z else acc) x) < f y) := by
  intro t
  induction t with
  | nil =>
    intro x
    exact ⟨[], [], rfl, by simp, by simp⟩
  | cons y t' ih =>
    intro x
    rw [List.foldl_cons]
    by_cases hxy : f y < f x
    · rw [if_pos hxy]
      obtain ⟨pre', post', hdec, hbound, hstrict⟩ := ih y
      refine ⟨x :: pre', post', by rw [List.cons_append, ← hdec], ?_, ?_⟩
      · intro z hz
        rcases List.mem_cons.mp hz with rfl | hz
        · exact le_of_lt (lt_of_le_of_lt (hbound y (List.mem_cons.mpr (Or.inl rfl))) hxy)
        · exact hbound z hz
      · intro z hz
        rcases List.mem_cons.mp hz with rfl | hz
        · exact lt_of_le_of_lt (hbound y (List.mem_cons.mpr (Or.inl rfl))) hxy
        · exact hstrict z hz
    · rw [if_neg hxy]
      have hyx : f x ≤ f y := not_lt.mp hxy
      obtain ⟨pre', post', hdec, hbound, hstrict⟩ := ih x
      cases pre' with
      | nil =>
        simp only [List.nil_append] at hdec
        have hm : t'.foldl (fun acc z => if f z < f acc then z else acc) x = x :=
          ((List.cons.injEq _ _ _ _).mp hdec).1.symm
        rw [hm] at hbound
        refine ⟨[], y :: t', ?_, ?_, by simp⟩
        · rw [hm]; rfl
        · intro z hz
          rw [hm]
          rcases List.mem_cons.mp hz with rfl | hz
          · exact le_refl _
          rcases List.mem_cons.mp hz with rfl | hz
          · exact hyx
          · exact hbound z (List.mem_cons.mpr (Or.inr hz))
      | cons w pre'' =>
        rw [List.cons_append] at hdec
        have hw : w = x := ((List.cons.injEq _ _ _ _).mp hdec).1.symm
        have ht' : t' = pre'' ++
            (t'.foldl (fun acc z => if f z < f acc then z else acc) x) :: post' :=
          ((List.cons.injEq _ _ _ _).mp hdec).2
        have hxlt : f (t'.foldl (fun acc z => if f z < f acc then z else acc) x)
            < f x := by
          have := hstrict w (List.mem_cons.mpr (Or.inl rfl))
          rwa [hw] at this
        refine ⟨x :: y :: pre'', post',
          by rw [List.cons_append, List.cons_append, ← ht'], ?_, ?_⟩
        · intro z hz
          rcases List.mem_cons.mp hz with rfl | hz
          · exact le_of_lt hxlt
          rcases List.mem_cons.mp hz with rfl | hz
          · exact le_of_lt (lt_of_lt_of_le hxlt hyx)
          · exact hbound z (List.mem_cons.mpr (Or.inr hz))
        · intro z hz
          rcases List.mem_cons.mp hz with rfl | hz
          · exact hxlt
          rcases List.mem_cons.mp hz with rfl | hz
          · exact lt_of_lt_of_le hxlt hyx
          · exact hstrict z (List.mem_cons.mpr (Or.inr hz))

theorem pyMaxBy_firstArgmax (l : List (String × DayStats)) (hl : l ≠ [])
    {β : Type} [LinearOrder β] (f : DayStats → β) :
    FirstArgmaxKey l f ((pyMaxBy (fun p => f p.2) l).map Prod.fst) := by
  cases l with
  | nil => exact absurd rfl hl
  | cons x t =>
    obtain ⟨pre, post, hdec, hbound, hstrict⟩ :=
      foldl_pyMax_first (fun p => f p.2) t x
    exact ⟨_, pre, post, hdec, rfl, hbound, hstrict⟩

theorem pyMinBy_firstArgmin (l : List (String × DayStats)) (hl : l ≠ [])
    {β : Type} [LinearOrder β] (f : DayStats → β) :
    FirstArgminKey l f ((pyMinBy (fun p => f p.2) l).map Prod.fst) := by
  cases l with
  | nil => exact absurd rfl hl
  | cons x t =>
    obtain ⟨pre, post, hdec, hbound, hstrict⟩ :=
      foldl_pyMin_first (fun p => f p.2) t x
    exact ⟨_, pre, post, hdec, rfl, fun q hq => hbound q hq, fun q hq => hstrict q hq⟩

theorem dayAnalysis_ne_nil (evs : List Event) (weeks : ℕ) :
    dayAnalysis evs weeks ≠ [] := by
  simp [dayAnalysis]

/-- C8: on a non-empty event set, `best_day`/`worst_day` are the first
weekday (in Monday→Sunday scan order) attaining the maximal / minimal
positive rate, and `most_active_day`/`least_active_day` the first
attaining the maximal / minimal count; with identical positive rates on
every weekday, `best_day` resolves to Monday. -/
theorem day_of_week_tie_breaks (evs : List Event) (weeks : ℕ) (h : evs ≠ []) :
    FirstArgmaxKey (dayAnalysis evs weeks) DayStats.positive_rate
        (detectDayOfWeekPatterns evs weeks).best_day ∧
      FirstArgminKey (dayAnalysis evs weeks) DayStats.positive_rate
        (detectDayOfWeekPatterns evs weeks).worst_day ∧
      FirstArgmaxKey (dayAnalysis evs weeks) DayStats.count
        (detectDayOfWeekPatterns evs weeks).most_active_day ∧
      FirstArgminKey (dayAnalysis evs weeks) DayStats.count
        (detectDayOfWeekPatterns evs weeks).least_active_day ∧
      (∀ r : ℚ, (∀ q ∈ dayAnalysis evs weeks, q.2.positive_rate = r) →
        (detectDayOfWeekPatterns evs weeks).best_day = some "Monday") := by
  have hbest : (detectDayOfWeekPatterns evs weeks).best_day =
      (pyMaxBy (fun p => p.2.positive_rate) (dayAnalysis evs weeks)).map Prod.fst := by
    simp [detectDayOfWeekPatterns, h]
  have hworst : (detectDayOfWeekPatterns evs weeks).worst_day =
      (pyMinBy (fun p => p.2.positive_rate) (dayAnalysis evs weeks)).map Prod.fst := by
    simp [detectDayOfWeekPatterns, h]
  have hmost : (detectDayOfWeekPatterns evs weeks).most_active_day =
      (pyMaxBy (fun p => p.2.count) (dayAnalysis evs weeks)).map Prod.fst := by
    simp [detectDayOfWeekPatterns, h]
  have hleast : (detectDayOfWeekPatterns evs weeks).least_active_day =
      (pyMinBy (fun p => p.2.count) (dayAnalysis evs weeks)).map Prod.fst := by
    simp [detectDayOfWeekPatterns, h]
  have hne := dayAnalysis_ne_nil evs weeks
  refine ⟨hbest ▸ pyMaxBy_firstArgmax _ hne _,
    hworst ▸ pyMinBy_firstArgmin _ hne _,
    hmost ▸ pyMaxBy_firstArgmax _ hne _,
    hleast ▸ pyMinBy_firstArgmin _ hne _, ?_⟩
  intro r hall
  obtain ⟨p, pre, post, hdec, hres, hbound, hstrict⟩ :=
    hbest ▸ pyMaxBy_firstArgmax (dayAnalysis evs weeks) hne DayStats.positive_rate
  cases pre with
  | cons z pre' =>
    exfalso
    have hz : z ∈ dayAnalysis evs weeks := by
      rw [hdec]; exact List.mem_append.mpr (Or.inl (List.mem_cons.mpr (Or.inl rfl)))
    have hp : p ∈ dayAnalysis evs weeks := by
      rw [hdec]
      exact List.mem_append.mpr (Or.inr (List.mem_cons.mpr (Or.inl rfl)))
    have h1 := hall z hz
    have h2 := hall p hp
    have h3 := hstrict z (List.mem_cons.mpr (Or.inl rfl))
    rw [h1, h2] at h3
    exact lt_irrefl r h3
  | nil =>
    simp only [List.nil_append] at hdec
    have h1 : (dayAnalysis evs weeks).head? = some p := by rw [hdec]; rfl
    have h2 : (dayAnalysis evs weeks).head? =
        some ("Monday", dayStatsFor evs weeks 0) := rfl
    rw [h1] at h2
    have hp1 : p.1 = "Monday" := by
      have := Option.some.injEq p ("Monday", dayStatsFor evs weeks 0) ▸ h2
      rw [this]
    rw [hres, hp1]

/-- Witness for C8 at the concrete event list `demoWeek`. -/
theorem day_of_week_tie_breaks_witness :
    FirstArgmaxKey (dayAnalysis demoWeek 4) DayStats.positive_rate
        (detectDayOfWeekPatterns demoWeek 4).best_day ∧
      FirstArgminKey (dayAnalysis demoWeek 4) DayStats.positive_rate
        (detectDayOfWeekPatterns demoWeek 4).worst_day ∧
      FirstArgmaxKey (dayAnalysis demoWeek 4) DayStats.count
        (detectDayOfWeekPatterns demoWeek 4).most_active_day ∧
      FirstArgminKey (dayAnalysis demoWeek 4) DayStats.count
        (detectDayOfWeekPatterns demoWeek 4).least_active_day ∧
      (∀ r : ℚ, (∀ q ∈ dayAnalysis demoWeek 4, q.2.positive_rate = r) →
        (detectDayOfWeekPatterns demoWeek 4).best_day = some "Monday") :=
  day_of_week_tie_breaks demoWeek 4 (by simp [demoWeek])

/-! ### Correlation mining (`PatternDetector.detect_correlations`) -/

/-- The set of distinct categories present on a date (`set(...)` of the
day's category list: duplicates within a day collapse). -/
def categoriesOn (evs : List Event) (d : Int) : List String :=
  ((evs.filter (fun e => e.date = d)).map Event.category).dedup

theorem categoriesOn_nodup (evs : List Event) (d : Int) :
    (categoriesOn evs d).Nodup :=
  List.nodup_dedup _

/-- The pair emission of one day of `detect_correlations`:
`for cat1 in cat_set: for cat2 in cat_set: if cat1 < cat2: count += 1`. -/
def dayPairs (catSet : List String) : List (String × String) :=
  catSet.flatMap (fun c1 =>
    catSet.filterMap (fun c2 => if c1 < c2 then some (c1, c2) else none))

/-- The distinct event dates (`groupby('date')` group keys; their order
does not affect the pair counts). -/
def eventDates (evs : List Event) : List Int := (evs.map Event.date).dedup

/-- The counter `pair_counts[p]`: the number of emissions of the ordered pair `p`
across all days.  The defaultdict holds counts only at canonical keys
`(a, b)` with `a < b`; any other key reads as 0. -/
def pairCount (evs : List Event) (p : String × String) : ℕ :=
  (((eventDates evs).flatMap (fun d => dayPairs (categoriesOn evs d))).filter
    (fun q => decide (q = p))).length

/-- Canonical (lexicographic) ordering of an unordered pair. -/
def canonPair (a b : String) : String × String :=
  if a < b then (a, b) else (b, a)

theorem mem_dayPairs (catSet : List String) (x y : String) :
    (x, y) ∈ dayPairs catSet ↔ x ∈ catSet ∧ y ∈ catSet ∧ x < y := by
  unfold dayPairs
  rw [List.mem_flatMap]
  constructor
  · rintro ⟨c1, hc1, hmem⟩
    rw [List.mem_filterMap] at hmem
    obtain ⟨c2, hc2, hif⟩ := hmem
    by_cases h : c1 < c2
    · rw [if_pos h, Option.some.injEq, Prod.mk.injEq] at hif
      obtain ⟨rfl, rfl⟩ := hif
      exact ⟨hc1, hc2, h⟩
    · rw [if_neg h] at hif
      exact absurd hif (by simp)
  · rintro ⟨hx, hy, hlt⟩
    refine ⟨x, hx, ?_⟩
    rw [List.mem_filterMap]
    exact ⟨y, hy, by rw [if_pos hlt]⟩

theorem dayPairs_nodup (catSet : List String) (hnd : catSet.Nodup) :
    (dayPairs catSet).Nodup := by
  unfold dayPairs
  rw [List.flatMap_def, List.nodup_flatten]
  constructor
  · intro l hl
    rw [List.mem_map] at hl
    obtain ⟨c1, -, rfl⟩ := hl
    apply List.Nodup.filterMap ?_ hnd
    intro a b p hpa hpb
    by_cases ha : c1 < a
    · rw [if_pos ha] at hpa
      by_cases hb : c1 < b
      · rw [if_pos hb] at hpb
        rw [Option.mem_def, Option.some.injEq] at hpa hpb
        rw [← hpa] at hpb
        exact ((Prod.mk.injEq _ _ _ _).mp hpb).2.symm
      · rw [if_neg hb] at hpb
        exact absurd hpb (by simp)
    · rw [if_neg ha] at hpa
      exact absurd hpa (by simp)
  · rw [List.pairwise_map]
    apply List.Pairwise.imp ?_ hnd
    intro c1 c1' hne p hp1 hp2
    rw [List.mem_filterMap] at hp1 hp2
    obtain ⟨c2, -, hif1⟩ := hp1
    obtain ⟨c2', -, hif2⟩ := hp2
    by_cases h1 : c1 < c2
    · rw [if_pos h1, Option.some.injEq] at hif1
      by_cases h2 : c1' < c2'
      · rw [if_pos h2, Option.some.injEq] at hif2
        rw [← hif1] at hif2
        exact hne ((Prod.mk.injEq _ _ _ _).mp hif2).1.symm
      · rw [if_neg h2] at hif2
        exact absurd hif2.symm (by simp)
    · rw [if_neg h1] at hif1
      exact absurd hif1.symm (by simp)

/-- On a duplicate-free list, the number of occurrences of `p` is its
membership indicator. -/
theorem length_filter_eq_of_nodup {α : Type} [DecidableEq α] (l : List α)
    (hnd : l.Nodup) (p : α) :
    (l.filter (fun q => decide (q = p))).length = if p ∈ l then 1 else 0 := by
  induction l with
  | nil => rfl
  | cons x t ih =>
    rw [List.nodup_cons] at hnd
    rw [List.filter_cons]
    by_cases h : x = p
    · subst h
      rw [if_pos (by simp), if_pos (List.mem_cons.mpr (Or.inl rfl)),
        List.length_cons, ih hnd.2, if_neg hnd.1]
    · rw [if_neg (by simpa using h), ih hnd.2]
      by_cases hp : p ∈ t
      · rw [if_pos hp, if_pos (List.mem_cons.mpr (Or.inr hp))]
      · rw [if_neg hp, if_neg ?_]
        intro hm
        rcases List.mem_cons.mp hm with rfl | hm
        · exact h rfl
        · exact hp hm

theorem sum_map_ite_one {α : Type} (l : List α) (P : α → Prop)
    [DecidablePred P] :
    (l.map (fun d => if P d then 1 else 0)).sum =
      (l.filter (fun d => decide (P d))).length := by
  induction l with
  | nil => rfl
  | cons d t ih =>
    rw [List.map_cons, List.sum_cons, List.filter_cons, ih]
    by_cases h : P d
    · rw [if_pos h, if_pos (by simpa using h)]
      simp [Nat.add_comm]
    · rw [if_neg h, if_neg (by simpa using h)]
      simp

theorem length_filter_flatMap {α β : Type} (g : α → List β) (l : List α)
    (f : β → Bool) :
    ((l.flatMap g).filter f).length =
      (l.map (fun d => ((g d).filter f).length)).sum := by
  induction l with
  | nil => rfl
  | cons d t ih =>
    rw [List.flatMap_cons, List.filter_append, List.length_append, ih,
      List.map_cons, List.sum_cons]

/-- Occurrences of an ordered pair in one day's emission: 1 when both
components are in the day's category set in increasing order, else 0. -/
theorem dayPairs_pair_count (catSet : List String) (hnd : catSet.Nodup)
    (x y : String) :
    ((dayPairs catSet).filter (fun q => decide (q = (x, y)))).length =
      if x ∈ catSet ∧ y ∈ catSet ∧ x < y then 1 else 0 := by
  rw [length_filter_eq_of_nodup _ (dayPairs_nodup catSet hnd)]
  by_cases h : x ∈ catSet ∧ y ∈ catSet ∧ x < y
  · rw [if_pos ((mem_dayPairs catSet x y).mpr h), if_pos h]
  · rw [if_neg (fun hm => h ((mem_dayPairs catSet x y).mp hm)), if_neg h]

/-- C9: the same-day co-occurrence counter of `detect_correlations`
counts, at the canonical key of an unordered pair of distinct
categories, exactly the number of distinct dates on whose
(duplicate-collapsed) category set both appear; the canonical key —
hence the counter — is the same for `(A, B)` and `(B, A)`, and a
category is never paired with itself. -/
theorem correlation_pair_symmetry (evs : List Event) (a b : String) :
    (a ≠ b →
        pairCount evs (canonPair a b) =
          ((eventDates evs).filter
            (fun d => decide (a ∈ categoriesOn evs d ∧
              b ∈ categoriesOn evs d))).length ∧
          canonPair a b = canonPair b a) ∧
      pairCount evs (a, a) = 0 := by
  constructor
  · intro hab
    rcases lt_trichotomy a b with hlt | heq | hgt
    · have hc : canonPair a b = (a, b) := if_pos hlt
      have hc' : canonPair b a = (a, b) := if_neg (not_lt.mpr (le_of_lt hlt))
      refine ⟨?_, by rw [hc, hc']⟩
      rw [hc, pairCount, length_filter_flatMap]
      have hpt : ∀ d ∈ eventDates evs,
          ((dayPairs (categoriesOn evs d)).filter
            (fun q => decide (q = (a, b)))).length =
            if a ∈ categoriesOn evs d ∧ b ∈ categoriesOn evs d then 1 else 0 := by
        intro d _
        rw [dayPairs_pair_count (categoriesOn evs d) (categoriesOn_nodup evs d)]
        by_cases h : a ∈ categoriesOn evs d ∧ b ∈ categoriesOn evs d
        · rw [if_pos ⟨h.1, h.2, hlt⟩, if_pos h]
        · rw [if_neg (fun hh => h ⟨hh.1, hh.2.1⟩), if_neg h]
      rw [List.map_congr_left hpt, sum_map_ite_one]
    · exact absurd heq hab
    · have hc : canonPair a b = (b, a) := if_neg (not_lt.mpr (le_of_lt hgt))
      have hc' : canonPair b a = (b, a) := if_pos hgt
      refine ⟨?_, by rw [hc, hc']⟩
      rw [hc, pairCount, length_filter_flatMap]
      have hpt : ∀ d ∈ eventDates evs,
          ((dayPairs (categoriesOn evs d)).filter
            (fun q => decide (q = (b, a)))).length =
            if a ∈ categoriesOn evs d ∧ b ∈ categoriesOn evs d then 1 else 0 := by
        intro d _
        rw [dayPairs_pair_count (categoriesOn evs d) (categoriesOn_nodup evs d)]
        by_cases h : a ∈ categoriesOn evs d ∧ b ∈ categoriesOn evs d
        · rw [if_pos ⟨h.2, h.1, hgt⟩, if_pos h]
        · rw [if_neg (fun hh => h ⟨hh.2.1, hh.1⟩), if_neg h]
      rw [List.map_congr_left hpt, sum_map_ite_one]
  · rw [pairCount, length_filter_flatMap]
    apply List.sum_eq_zero
    intro x hx
    rw [List.mem_map] at hx
    obtain ⟨d, -, rfl⟩ := hx
    rw [dayPairs_pair_count (categoriesOn evs d) (categoriesOn_nodup evs d),
      if_neg (fun hh => lt_irrefl a hh.2.2)]

/-- Witness for C9 at a concrete pair and event list. -/
theorem correlation_pair_symmetry_witness :
    ("Exercise" ≠ "Study" →
        pairCount demoWeek (canonPair "Exercise" "Study") =
          ((eventDates demoWeek).filter
            (fun d => decide ("Exercise" ∈ categoriesOn demoWeek d ∧
              "Study" ∈ categoriesOn demoWeek d))).length ∧
          canonPair "Exercise" "Study" = canonPair "Study" "Exercise") ∧
      pairCount demoWeek ("Exercise", "Exercise") = 0 :=
  correlation_pair_symmetry demoWeek "Exercise" "Study"

end Trackit
